import Mathlib

/-!
# Verification of the NyayaGhost legal-assistant screens

Shallow embedding of the string-processing logic of the `LegalAssistant`
screen (FIR field extraction and document assembly, chat send handler) and
of the `LegalRightsGuide` screen (substring search over the static legal
dataset), together with theorems settling the specification claims.

Machine strings are modelled as `List Char`; the JavaScript string methods
used by the source (`match` with the per-label regex, `replace` with a
string pattern, `trim`, `toLowerCase`, `includes`) are given executable
definitions that mirror the JavaScript semantics on the relevant inputs.
-/

namespace NyayaGhost

/-- ASCII lower-casing of a character.  The regex `i` flag and
`String.prototype.toLowerCase` agree with this on the ASCII label alphabet
used by the program. -/
def lowerChar (c : Char) : Char :=
  if 'A' ≤ c ∧ c ≤ 'Z' then Char.ofNat (c.toNat + 32) else c

/-- JavaScript `String.prototype.toLowerCase`, character-wise. -/
def jsToLower (s : List Char) : List Char := s.map lowerChar

/-- The WhiteSpace/LineTerminator set of ECMAScript, as used by
`String.prototype.trim`. -/
def isJsWS (c : Char) : Bool :=
  c = ' ' || c = '\t' || c = '\n' || c = '\r' ||
  c = Char.ofNat 11 || c = Char.ofNat 12 || c = Char.ofNat 0xa0 ||
  c = Char.ofNat 0x1680 || (0x2000 ≤ c.toNat && c.toNat ≤ 0x200a) ||
  c = Char.ofNat 0x2028 || c = Char.ofNat 0x2029 || c = Char.ofNat 0x202f ||
  c = Char.ofNat 0x205f || c = Char.ofNat 0x3000 || c = Char.ofNat 0xfeff

/-- JavaScript `String.prototype.trim`: strip leading and trailing
whitespace. -/
def trim (l : List Char) : List Char :=
  ((l.dropWhile isJsWS).reverse.dropWhile isJsWS).reverse

/-- Case-insensitive "the pattern starts here": `ciStarts p l` holds when
`p` matches a prefix of `l` up to ASCII case. -/
def ciStarts : List Char → List Char → Bool
  | [], _ => true
  | _ :: _, [] => false
  | p :: ps, c :: cs => (lowerChar p == lowerChar c) && ciStarts ps cs

/-- Index of the leftmost case-insensitive occurrence of `pat` in `s`
(the start position chosen by a JavaScript regex search for a literal
pattern under the `i` flag). -/
def findCI (pat : List Char) : List Char → Option Nat
  | [] => if ciStarts pat [] then some 0 else none
  | c :: cs =>
    if ciStarts pat (c :: cs) then some 0
    else (findCI pat cs).map (· + 1)

/-- Exact "the pattern starts here": `exStarts p l` holds when `p` is a
prefix of `l`. -/
def exStarts : List Char → List Char → Bool
  | [], _ => true
  | _ :: _, [] => false
  | p :: ps, c :: cs => (p == c) && exStarts ps cs

/-- Index of the leftmost exact occurrence of `pat` in `s`, accumulating
the index of the current position (the search performed by
`String.prototype.replace` with a string pattern). -/
def findFirstAux (pat : List Char) : List Char → Nat → Option Nat
  | [], i => if exStarts pat [] then some i else none
  | c :: cs, i =>
    if exStarts pat (c :: cs) then some i
    else findFirstAux pat cs (i + 1)

/-- Index of the leftmost exact occurrence of `pat` in `s`. -/
def findFirst (pat s : List Char) : Option Nat := findFirstAux pat s 0

/-- Structurally recursive restatement of `findFirst`, used by the
proofs; `findFirst_eq_findFirstR` identifies the two. -/
def findFirstR (pat : List Char) : List Char → Option Nat
  | [] => if exStarts pat [] then some 0 else none
  | c :: cs =>
    if exStarts pat (c :: cs) then some 0
    else (findFirstR pat cs).map (· + 1)

/-- JavaScript `String.prototype.includes`, as a Boolean substring test. -/
def containsSub (pat s : List Char) : Bool := (findFirst pat s).isSome

/-- `pat` occurs somewhere inside `s` (propositional form). -/
def occursIn (pat s : List Char) : Prop := ∃ a b, s = a ++ pat ++ b

/-- Expansion of the replacement string of `String.prototype.replace` with
a string search value: `$$`, `$&`, a dollar followed by a backtick, and a
dollar followed by an apostrophe are substitution patterns (`m` is the
matched text, `b` the part of the subject before the match, `a` the part
after); any other use of `$` is literal.  There are no capture groups for
a string search value, so `$n` and named references stay literal. -/
def expandRepl (m b a : List Char) : List Char → List Char
  | [] => []
  | c :: rs =>
    if c = '$' then
      match rs with
      | [] => ['$']
      | d :: rs2 =>
        if d = '$' then '$' :: expandRepl m b a rs2
        else if d = '&' then m ++ expandRepl m b a rs2
        else if d = Char.ofNat 96 then b ++ expandRepl m b a rs2
        else if d = Char.ofNat 39 then a ++ expandRepl m b a rs2
        else '$' :: expandRepl m b a (d :: rs2)
    else c :: expandRepl m b a rs

/-- JavaScript `s.replace(pat, repl)` with a string pattern: replace the
first exact occurrence of `pat`, expanding substitution patterns in
`repl`; if `pat` does not occur, return `s` unchanged. -/
def replaceFirst (s pat repl : List Char) : List Char :=
  match findFirst pat s with
  | none => s
  | some i =>
    s.take i ++ expandRepl pat (s.take i) (s.drop (i + pat.length)) repl ++
      s.drop (i + pat.length)

/-- The fixed ordered list of section labels of `generateFIRAndShare`. -/
def sections : List String :=
  ["Complainant Details", "Incident Details", "Accused Details",
   "Witness Details", "Evidence Details", "IPC Sections"]

/-- The placeholder content used when a label has no match. -/
def MISSING : String := "Information not provided"

/-- Alternatives of the lookahead of the per-label regex.  The source
builds the pattern by joining the labels with a bar and appending a colon
once, so the colon binds only to the final alternative: the first five
labels terminate a span bare, while only the literal text
`IPC Sections:` (with a colon) does for the last label.  The end of the
input is a further alternative, handled separately in `isTermSuffix`. -/
def termAlts : List (List Char) :=
  ["Complainant Details".data, "Incident Details".data,
   "Accused Details".data, "Witness Details".data,
   "Evidence Details".data, "IPC Sections:".data]

/-- Does the terminator lookahead of the per-label regex match at the
start of the suffix `l`?  The empty suffix corresponds to the end-of-input
alternative of the lookahead. -/
def isTermSuffix (l : List Char) : Bool :=
  decide (l = []) || termAlts.any (fun p => ciStarts p l)

/-- The lazy body of the per-label regex: consume characters until the
terminator lookahead first matches (the lookahead is tried before each
character, so the span can be empty). -/
def takeUntilTerm : List Char → List Char
  | [] => []
  | c :: cs => if isTermSuffix (c :: cs) then [] else c :: takeUntilTerm cs

/-- `contentText.match(regex)` of `generateFIRAndShare` for the label `L`:
the whole matched text (`match[0]`) of the per-label regex, or `none` when
`L` followed by a colon does not occur (case-insensitively) in `t`.  When
the label occurs, the match always succeeds because the lookahead accepts
the end of the input. -/
def matchSection (L : List Char) (t : List Char) : Option (List Char) :=
  match findCI (L ++ [':']) t with
  | none => none
  | some i =>
    let rest := t.drop i
    some (rest.take (L.length + 1) ++ takeUntilTerm (rest.drop (L.length + 1)))

/-- The extracted content for label `L`: the matched span with the first
exact occurrence of `L:` removed (`match[0].replace` with a string
pattern is case-sensitive) and then trimmed, or the placeholder when the
label does not match. -/
def extractContent (L : String) (t : List Char) : List Char :=
  match matchSection L.data t with
  | none => MISSING.data
  | some m => trim (replaceFirst m (L.data ++ [':']) [])

/-- String-typed wrapper of `extractContent`. -/
def extractContentStr (L : String) (t : String) : String :=
  String.mk (extractContent L t.data)

/-- The six label/content pairs produced by field extraction, in the fixed
canonical order of `sections`. -/
def extractSections (t : String) : List (String × String) :=
  sections.map (fun s => (s, extractContentStr s t))

/-! ## The extraction contract as worded by the specification

The following definitions follow the specification's words, not the
source: "a greedy pattern that matches from the literal occurrence of
`L:` up to (but not including) the next occurrence of any label in
`labels` followed by `:`, or up to the end of the text", with the
extracted content being "the matched span with the leading `L:` prefix
stripped and surrounding whitespace trimmed".  They are compared with the
source-derived definitions above. -/

/-- Per the spec's words: every label followed by a colon terminates a
span. -/
def specTermAlts : List (List Char) := sections.map (fun s => s.data ++ [':'])

/-- Per the spec's words: the terminator is the next occurrence of any
label followed by a colon, or the end of the text. -/
def specIsTermSuffix (l : List Char) : Bool :=
  decide (l = []) || specTermAlts.any (fun p => ciStarts p l)

/-- Span scan per the spec's words. -/
def specTakeUntilTerm : List Char → List Char
  | [] => []
  | c :: cs => if specIsTermSuffix (c :: cs) then [] else c :: specTakeUntilTerm cs

/-- Matched span per the spec's words. -/
def specMatchSection (L : List Char) (t : List Char) : Option (List Char) :=
  match findCI (L ++ [':']) t with
  | none => none
  | some i =>
    let rest := t.drop i
    some (rest.take (L.length + 1) ++ specTakeUntilTerm (rest.drop (L.length + 1)))

/-- Extracted content per the spec's words: the matched span with the
leading `L:` prefix stripped and then trimmed. -/
def specExtractContent (L : String) (t : List Char) : List Char :=
  match specMatchSection L.data t with
  | none => MISSING.data
  | some m => trim (m.drop (L.data.length + 1))

/-- String-typed wrapper of `specExtractContent`. -/
def specExtractContentStr (L : String) (t : String) : String :=
  String.mk (specExtractContent L t.data)

/-! ## Document assembly -/

/-- The static FIR document template of the source (`FIR_TEMPLATE`). -/
def FIR_TEMPLATE : String :=
  "\n<!DOCTYPE html>\n<html>\n<head>\n<style>\n  body \x7b font-family: Arial, sans-serif; line-height: 1.6; padding: 40px; \x7d\n  .header \x7b text-align: center; margin-bottom: 30px; \x7d\n  .section \x7b margin: 20px 0; \x7d\n  .section-title \x7b font-weight: bold; margin-bottom: 10px; \x7d\n  .footer \x7b margin-top: 40px; \x7d\n  .signature-line \x7b margin-top: 20px; border-top: 1px solid #000; width: 200px; \x7d\n</style>\n</head>\n<body>\n  <div class=\"header\">\n    <h2>FIRST INFORMATION REPORT</h2>\n    <p>(Under Section 154 Cr.P.C)</p>\n  </div>\n  \x7b\x7bCONTENT\x7d\x7d\n  <div class=\"footer\">\n    <div style=\"float:left\">\n      <p>Date: \x7b\x7bDATE\x7d\x7d</p>\n      <p class=\"signature-line\">Signature of Complainant</p>\n    </div>\n    <div style=\"float:right\">\n      <p class=\"signature-line\">Signature of Officer</p>\n    </div>\n  </div>\n</body>\n</html>"

/-- The `\x7b\x7bCONTENT\x7d\x7d` placeholder. -/
def contentPH : String := "\x7b\x7bCONTENT\x7d\x7d"

/-- The `\x7b\x7bDATE\x7d\x7d` placeholder. -/
def datePH : String := "\x7b\x7bDATE\x7d\x7d"

/-- The part of `FIR_TEMPLATE` before the content placeholder. -/
def tplA : String :=
  "\n<!DOCTYPE html>\n<html>\n<head>\n<style>\n  body \x7b font-family: Arial, sans-serif; line-height: 1.6; padding: 40px; \x7d\n  .header \x7b text-align: center; margin-bottom: 30px; \x7d\n  .section \x7b margin: 20px 0; \x7d\n  .section-title \x7b font-weight: bold; margin-bottom: 10px; \x7d\n  .footer \x7b margin-top: 40px; \x7d\n  .signature-line \x7b margin-top: 20px; border-top: 1px solid #000; width: 200px; \x7d\n</style>\n</head>\n<body>\n  <div class=\"header\">\n    <h2>FIRST INFORMATION REPORT</h2>\n    <p>(Under Section 154 Cr.P.C)</p>\n  </div>\n  "

/-- The part of `FIR_TEMPLATE` between the content and date placeholders. -/
def tplB : String :=
  "\n  <div class=\"footer\">\n    <div style=\"float:left\">\n      <p>Date: "

/-- The part of `FIR_TEMPLATE` after the date placeholder. -/
def tplC : String :=
  "</p>\n      <p class=\"signature-line\">Signature of Complainant</p>\n    </div>\n    <div style=\"float:right\">\n      <p class=\"signature-line\">Signature of Officer</p>\n    </div>\n  </div>\n</body>\n</html>"

/-- The fixed block markup that wraps one label/content pair (the template
literal returned inside `sections.map` in `generateFIRAndShare`). -/
def sectionBlock (label content : List Char) : List Char :=
  "\n          <div class=\"section\">\n            <div class=\"section-title\">".data ++
    label ++ "</div>\n            <div>".data ++ content ++ "</div>\n          </div>".data

/-- `structuredContent`: all six blocks, in canonical label order, joined
with the empty separator. -/
def structuredContentOf (t : List Char) : List Char :=
  (sections.map (fun s => sectionBlock s.data (extractContent s t))).flatten

/-- `formattedHtml`: substitute the block concatenation and then the date
string into the two placeholders of the template, each via a first-
occurrence string replace. -/
def assembleDocument (t : List Char) (date : List Char) : List Char :=
  replaceFirst
    (replaceFirst FIR_TEMPLATE.data contentPH.data (structuredContentOf t))
    datePH.data date

/-! ## The chat send handler (`handleSend`) -/

/-- One turn of the conversation transcript. -/
structure ChatMsg where
  role : String
  text : String
deriving DecidableEq, Repr

/-- The mutable screen state touched by `handleSend`: the transcript, the
input field, and the rows inserted into the persistence table. -/
structure ChatState where
  messages : List ChatMsg
  inputText : String
  saved : List (String × String)
deriving DecidableEq, Repr

/-- The fixed fallback reply used when the generation call fails. -/
def FALLBACK : String :=
  "I am having trouble reaching the helper service right now. Please try again shortly."

/-- JavaScript `String.prototype.trim` on `String`. -/
def jsTrim (s : String) : String := String.mk (trim s.data)

/-- `handleSend`, with the two potential generation calls modelled by
their outcomes (`none` = the call throws, `some r` = it returns `r`).
Returns the new screen state and the number of generation calls made.
The first call's failure is caught and replaced by `FALLBACK`; a second
call happens only when the first reply contains `NEEDS_SEARCH`, and its
failure keeps the first reply. -/
def handleSend (st : ChatState) (g1 g2 : Option String) : ChatState × Nat :=
  if (jsTrim st.inputText).isEmpty then (st, 0)
  else
    let userText := jsTrim st.inputText
    let st1 : ChatState :=
      { messages := st.messages ++ [⟨"user", userText⟩]
        inputText := ""
        saved := st.saved ++ [("user", userText)] }
    let aiReply0 := match g1 with
      | some r => r
      | none => FALLBACK
    let step : String × Nat :=
      if containsSub "NEEDS_SEARCH".data aiReply0.data then
        match g2 with
        | some r => (r, 2)
        | none => (aiReply0, 2)
      else (aiReply0, 1)
    ({ st1 with
        messages := st1.messages ++ [⟨"assistant", step.1⟩]
        saved := st1.saved ++ [("assistant", step.1)] }, step.2)

/-! ## The Legal Rights Guide search (`handleSearch`) -/

/-- A record of the static legal datasets (`ipc.json` / `pwdva.json`):
title, description and section number. -/
structure LawRecord where
  title : String
  description : String
  sec : String
deriving DecidableEq, Repr

/-- A dataset entry tagged with its source collection. -/
structure LawEntry where
  title : String
  description : String
  sec : String
  source : String
deriving DecidableEq, Repr

/-- `allData`: all IPC entries tagged `"IPC"` followed by all PWDVA
entries tagged `"PWDVA"`, preserving dataset order. -/
def allData (ipc pwdva : List LawRecord) : List LawEntry :=
  ipc.map (fun r => ⟨r.title, r.description, r.sec, "IPC"⟩) ++
    pwdva.map (fun r => ⟨r.title, r.description, r.sec, "PWDVA"⟩)

/-- The filter predicate of `handleSearch`: the lower-cased title or
description contains the lower-cased query as a substring. -/
def searchPred (query : String) (item : LawEntry) : Bool :=
  containsSub (jsToLower query.data) (jsToLower item.title.data) ||
    containsSub (jsToLower query.data) (jsToLower item.description.data)

/-- `handleSearch`: keep exactly the entries matching the query. -/
def handleSearch (data : List LawEntry) (query : String) : List LawEntry :=
  data.filter (searchPred query)


/-! ## Helper lemmas -/

theorem ciStarts_append_left {p q l : List Char} (h : ciStarts (p ++ q) l = true) :
    ciStarts p l = true := by
  induction p generalizing l with
  | nil => rfl
  | cons c ps ih =>
    cases l with
    | nil => simp [ciStarts] at h
    | cons d ls =>
      simp only [List.cons_append, ciStarts, Bool.and_eq_true] at h ⊢
      exact ⟨h.1, ih h.2⟩

theorem findCI_none_mono {p q t : List Char} (h : findCI p t = none) :
    findCI (p ++ q) t = none := by
  induction t with
  | nil =>
    simp only [findCI] at h ⊢
    by_cases hp : ciStarts (p ++ q) [] = true
    · rw [if_pos (ciStarts_append_left hp)] at h
      simp at h
    · rw [if_neg hp]
  | cons c cs ih =>
    simp only [findCI] at h ⊢
    by_cases hp : ciStarts (p ++ q) (c :: cs) = true
    · rw [if_pos (ciStarts_append_left hp)] at h
      simp at h
    · rw [if_neg hp]
      by_cases hps : ciStarts p (c :: cs) = true
      · rw [if_pos hps] at h
        simp at h
      · rw [if_neg hps] at h
        cases hfc : findCI p cs with
        | none => rw [ih (by simpa using h)]; rfl
        | some k => rw [hfc] at h; simp at h

theorem ciStarts_self_append (p r : List Char) : ciStarts p (p ++ r) = true := by
  induction p with
  | nil => rfl
  | cons c ps ih => simp [ciStarts, ih]

theorem exStarts_iff_take {p l : List Char} :
    exStarts p l = true ↔ l.take p.length = p := by
  induction p generalizing l with
  | nil => simp [exStarts]
  | cons c ps ih =>
    cases l with
    | nil => simp [exStarts]
    | cons d ls =>
      simp only [exStarts, Bool.and_eq_true, beq_iff_eq, List.length_cons,
        List.take_succ_cons, List.cons.injEq, ih]
      constructor
      · rintro ⟨rfl, h2⟩
        exact ⟨rfl, h2⟩
      · rintro ⟨rfl, h2⟩
        exact ⟨rfl, h2⟩

theorem exStarts_self_append (p r : List Char) : exStarts p (p ++ r) = true := by
  induction p with
  | nil => rfl
  | cons c ps ih => simp [exStarts, ih]

theorem exStarts_take (n : Nat) (l : List Char) : exStarts (l.take n) l = true := by
  induction l generalizing n with
  | nil => simp [exStarts]
  | cons c cs ih =>
    cases n with
    | zero => rfl
    | succ n2 =>
      simp only [List.take_succ_cons, exStarts, beq_self_eq_true, Bool.true_and]
      exact ih n2

theorem findFirstR_nil_pat (s : List Char) : findFirstR [] s = some 0 := by
  cases s <;> simp [findFirstR, exStarts]

theorem findFirstR_some_starts {pat s : List Char} {i : Nat}
    (h : findFirstR pat s = some i) : exStarts pat (s.drop i) = true := by
  induction s generalizing i with
  | nil =>
    simp only [findFirstR] at h
    by_cases hp : exStarts pat [] = true
    · rw [if_pos hp] at h
      cases h
      simpa using hp
    · rw [if_neg hp] at h
      simp at h
  | cons c cs ih =>
    simp only [findFirstR] at h
    by_cases hp : exStarts pat (c :: cs) = true
    · rw [if_pos hp] at h
      cases h
      simpa using hp
    · rw [if_neg hp] at h
      cases hfc : findFirstR pat cs with
      | none => rw [hfc] at h; simp at h
      | some j =>
        rw [hfc] at h
        simp only [Option.map_some', Option.some.injEq] at h
        subst h
        simpa using ih hfc

theorem findFirstR_none_starts {pat s : List Char}
    (h : findFirstR pat s = none) :
    ∀ j, exStarts pat (s.drop j) = false := by
  induction s with
  | nil =>
    intro j
    simp only [findFirstR] at h
    by_cases hp : exStarts pat [] = true
    · rw [if_pos hp] at h
      simp at h
    · simpa using hp
  | cons c cs ih =>
    intro j
    simp only [findFirstR] at h
    by_cases hp : exStarts pat (c :: cs) = true
    · rw [if_pos hp] at h
      simp at h
    · rw [if_neg hp] at h
      have hfc : findFirstR pat cs = none := by
        cases hfc : findFirstR pat cs with
        | none => rfl
        | some k => rw [hfc] at h; simp at h
      cases j with
      | zero => simpa using hp
      | succ j2 => simpa using ih hfc j2

theorem findFirstR_append_unique {pat X Y : List Char}
    (h : ∀ j, j < X.length → exStarts pat ((X ++ (pat ++ Y)).drop j) = false) :
    findFirstR pat (X ++ (pat ++ Y)) = some X.length := by
  induction X with
  | nil =>
    have hself := exStarts_self_append pat Y
    simp only [List.nil_append, List.length_nil]
    cases hpy : pat ++ Y with
    | nil =>
      rw [hpy] at hself
      simp only [findFirstR]
      rw [if_pos hself]
    | cons c cs =>
      rw [hpy] at hself
      simp only [findFirstR]
      rw [if_pos hself]
  | cons x xs ih =>
    have h0 := h 0 (by simp)
    simp only [List.drop_zero, List.cons_append] at h0
    simp only [List.cons_append, findFirstR]
    rw [if_neg (by simp [h0])]
    simp only [List.append_eq]
    rw [ih (fun j hj => by simpa using h (j + 1) (by simpa using Nat.succ_lt_succ hj))]
    simp [Nat.add_comm]

theorem exStarts_append_of_le {pat u v : List Char} (h : pat.length ≤ u.length) :
    exStarts pat (u ++ v) = exStarts pat u := by
  rw [Bool.eq_iff_iff, exStarts_iff_take, exStarts_iff_take,
    List.take_append_of_le_length h]

theorem findFirstR_of_not_contains {pat X Y : List Char}
    (hXnone : findFirstR pat X = none)
    (hno : ∀ k, k < pat.length → 0 < k → exStarts (pat.drop k) pat = false) :
    findFirstR pat (X ++ (pat ++ Y)) = some X.length := by
  apply findFirstR_append_unique
  intro j hj
  rw [List.drop_append_of_le_length (Nat.le_of_lt hj)]
  by_cases hcase : pat.length ≤ (X.drop j).length
  · rw [exStarts_append_of_le hcase]
    exact findFirstR_none_starts hXnone j
  · push_neg at hcase
    by_contra hcontra
    rw [Bool.not_eq_false, exStarts_iff_take] at hcontra
    have hlen : (X.drop j).length < pat.length := hcase
    have htake : (X.drop j ++ (pat ++ Y)).take pat.length
        = X.drop j ++ pat.take (pat.length - (X.drop j).length) := by
      rw [List.take_append_eq_append_take, List.take_of_length_le (Nat.le_of_lt hlen),
        List.take_append_of_le_length (by omega)]
    rw [htake] at hcontra
    have hdrop : pat.drop (X.drop j).length = pat.take (pat.length - (X.drop j).length) := by
      conv_lhs => rw [← hcontra]
      rw [List.drop_left]
    have hpos : 0 < (X.drop j).length := by
      rw [List.length_drop]
      omega
    have hbad := hno (X.drop j).length hlen hpos
    rw [hdrop] at hbad
    have hgood := exStarts_take (pat.length - (X.drop j).length) pat
    rw [hbad] at hgood
    simp at hgood

theorem findFirstAux_eq (pat : List Char) :
    ∀ (s : List Char) (i : Nat), findFirstAux pat s i = (findFirstR pat s).map (· + i) := by
  intro s
  induction s with
  | nil =>
    intro i
    simp only [findFirstAux, findFirstR]
    by_cases hp : exStarts pat [] = true
    · rw [if_pos hp, if_pos hp]
      simp
    · rw [if_neg hp, if_neg hp]
      rfl
  | cons c cs ih =>
    intro i
    simp only [findFirstAux, findFirstR]
    by_cases hp : exStarts pat (c :: cs) = true
    · rw [if_pos hp, if_pos hp]
      simp
    · rw [if_neg hp, if_neg hp, ih]
      cases findFirstR pat cs with
      | none => rfl
      | some k =>
        simp only [Option.map_some', Option.some.injEq]
        omega

theorem findFirst_eq_findFirstR (pat s : List Char) :
    findFirst pat s = findFirstR pat s := by
  rw [findFirst, findFirstAux_eq]
  cases findFirstR pat s <;> simp

theorem findFirst_nil_pat (s : List Char) : findFirst [] s = some 0 := by
  rw [findFirst_eq_findFirstR, findFirstR_nil_pat]

theorem findFirst_of_not_contains {pat X Y : List Char}
    (hX : containsSub pat X = false)
    (hno : ∀ k, k < pat.length → 0 < k → exStarts (pat.drop k) pat = false) :
    findFirst pat (X ++ (pat ++ Y)) = some X.length := by
  rw [findFirst_eq_findFirstR]
  apply findFirstR_of_not_contains _ hno
  unfold containsSub at hX
  rw [findFirst_eq_findFirstR] at hX
  cases hfc : findFirstR pat X with
  | none => rfl
  | some k => rw [hfc] at hX; simp at hX

theorem expandRepl_no_dollar {m b a r : List Char} (h : '$' ∉ r) :
    expandRepl m b a r = r := by
  induction r with
  | nil => rfl
  | cons c rs ih =>
    have hc : ¬ c = '$' := by
      intro hceq
      exact h (by simp [hceq])
    have hrs : '$' ∉ rs := by
      intro hm
      exact h (List.mem_cons_of_mem c hm)
    rw [expandRepl.eq_def]
    simp only [hc, if_false]
    rw [ih hrs]

theorem takeUntilTerm_of {l : List Char} {n : Nat}
    (h1 : ∀ j, j < n → isTermSuffix (l.drop j) = false)
    (h2 : isTermSuffix (l.drop n) = true) :
    takeUntilTerm l = l.take n := by
  induction n generalizing l with
  | zero =>
    cases l with
    | nil => rfl
    | cons c cs =>
      simp only [List.drop_zero] at h2
      simp only [takeUntilTerm]
      rw [if_pos h2, List.take_zero]
  | succ n2 ih =>
    cases l with
    | nil => rfl
    | cons c cs =>
      have h0 := h1 0 (Nat.succ_pos n2)
      simp only [List.drop_zero] at h0
      simp only [takeUntilTerm]
      rw [if_neg (by simp [h0]), List.take_succ_cons]
      congr 1
      exact ih (fun j hj => by simpa using h1 (j + 1) (by omega)) (by simpa using h2)

theorem takeUntilTerm_no_term (l : List Char) :
    ∀ j, j < (takeUntilTerm l).length → isTermSuffix (l.drop j) = false := by
  induction l with
  | nil =>
    intro j hj
    simp [takeUntilTerm] at hj
  | cons c cs ih =>
    intro j hj
    simp only [takeUntilTerm] at hj
    by_cases hterm : isTermSuffix (c :: cs) = true
    · rw [if_pos hterm] at hj
      simp at hj
    · rw [if_neg hterm] at hj
      cases j with
      | zero => simpa using hterm
      | succ j2 =>
        simp only [List.length_cons, Nat.succ_lt_succ_iff] at hj
        simpa using ih j2 hj

theorem takeUntilTerm_stop (l : List Char) :
    isTermSuffix (l.drop (takeUntilTerm l).length) = true := by
  induction l with
  | nil => rfl
  | cons c cs ih =>
    simp only [takeUntilTerm]
    by_cases hterm : isTermSuffix (c :: cs) = true
    · rw [if_pos hterm]
      simpa using hterm
    · rw [if_neg hterm]
      simpa using ih

theorem takeUntilTerm_eq_take (l : List Char) :
    takeUntilTerm l = l.take (takeUntilTerm l).length :=
  takeUntilTerm_of (takeUntilTerm_no_term l) (takeUntilTerm_stop l)

theorem occursIn_iff_starts {pat s : List Char} :
    occursIn pat s ↔ ∃ j, exStarts pat (s.drop j) = true := by
  constructor
  · rintro ⟨a, b, rfl⟩
    refine ⟨a.length, ?_⟩
    rw [List.append_assoc, List.drop_left]
    exact exStarts_self_append pat b
  · rintro ⟨j, hj⟩
    rw [exStarts_iff_take] at hj
    have hs : s = s.take j ++ ((s.drop j).take pat.length ++ (s.drop j).drop pat.length) := by
      rw [List.take_append_drop, List.take_append_drop]
    rw [hj, List.drop_drop] at hs
    refine ⟨s.take j, s.drop (j + pat.length), ?_⟩
    rw [← List.append_assoc] at hs
    exact hs

theorem containsSub_iff_occursIn {pat s : List Char} :
    containsSub pat s = true ↔ occursIn pat s := by
  rw [occursIn_iff_starts]
  unfold containsSub
  rw [findFirst_eq_findFirstR]
  constructor
  · intro h
    cases hf : findFirstR pat s with
    | none => rw [hf] at h; simp at h
    | some i => exact ⟨i, findFirstR_some_starts hf⟩
  · rintro ⟨j, hj⟩
    cases hf : findFirstR pat s with
    | none => rw [findFirstR_none_starts hf j] at hj; cases hj
    | some i => simp

theorem mk_data (s : String) : String.mk s.data = s := rfl

/-! ## Claim theorems -/

/-- C1: for every input text, field extraction produces exactly one
extracted section per section label, in the fixed canonical order of
`sections` (which has no duplicate labels), regardless of whether and in
what order the labels appear in the input; a label with no match yields
the literal content `Information not provided`, never an omitted
section. -/
theorem extraction_fixed_sections (t : String) :
    (extractSections t).map Prod.fst = sections ∧
    sections.Nodup ∧
    (∀ L, L ∈ sections → matchSection L.data t.data = none →
      (L, MISSING) ∈ extractSections t) := by
  refine ⟨rfl, by decide, ?_⟩
  intro L hL hnone
  have hval : extractContentStr L t = MISSING := by
    unfold extractContentStr extractContent
    rw [hnone]
  exact List.mem_map.mpr ⟨L, hL, by rw [hval]⟩

/-- Witness for `extraction_fixed_sections` at a concrete input in which
only one label occurs, out of canonical position. -/
theorem extraction_fixed_sections_witness :
    (extractSections "Incident Details: home visit").map Prod.fst = sections ∧
    ("Witness Details", MISSING) ∈ extractSections "Incident Details: home visit" :=
  ⟨(extraction_fixed_sections "Incident Details: home visit").1,
    (extraction_fixed_sections "Incident Details: home visit").2.2
      "Witness Details" (by decide) (by decide)⟩

/-- C2 counterexample: the claim says a bare occurrence of another
label's name not followed by a colon does not terminate a span.  On the
code, the bare text `Incident Details` (no colon) does terminate the
`Complainant Details` span, because the appended colon of the lookahead
binds only to the last alternative `IPC Sections`.  The spec-worded
extractor (`specExtractContentStr`) disagrees with the code here. -/
theorem span_terminator_cex :
    extractContentStr "Complainant Details"
        "Complainant Details: Jane Incident Details without colon" = "Jane" ∧
    specExtractContentStr "Complainant Details"
        "Complainant Details: Jane Incident Details without colon"
      = "Jane Incident Details without colon" ∧
    ("Jane" : String) ≠ "Jane Incident Details without colon" := by
  refine ⟨by decide, by decide, by decide⟩

/-- C2 (amended): when `L:` occurs (case-insensitively, leftmost at `i`),
the matched span runs from `i` up to the first later position at which
the terminator alternation matches, or to the end of the text; the
terminator alternatives are the five bare labels, the literal
`IPC Sections:` (only this one requires the colon), and the end of the
input — as recorded in `isTermSuffix`. -/
theorem span_scan_characterization (L : String) (t : List Char) (i : Nat)
    (hfind : findCI (L.data ++ [':']) t = some i) :
    ∃ n, matchSection L.data t = some ((t.drop i).take (L.data.length + 1 + n)) ∧
      (∀ j, j < n → isTermSuffix (t.drop (i + (L.data.length + 1) + j)) = false) ∧
      isTermSuffix (t.drop (i + (L.data.length + 1) + n)) = true := by
  refine ⟨(takeUntilTerm (t.drop (i + (L.data.length + 1)))).length, ?_, ?_, ?_⟩
  · simp only [matchSection, hfind, Option.some.injEq, List.drop_drop]
    conv_rhs => rw [List.take_add]
    congr 1
    rw [List.drop_drop]
    exact takeUntilTerm_eq_take _
  · intro j hj
    have hterm := takeUntilTerm_no_term (t.drop (i + (L.data.length + 1))) j hj
    simp only [List.drop_drop] at hterm
    exact hterm
  · have hterm := takeUntilTerm_stop (t.drop (i + (L.data.length + 1)))
    simp only [List.drop_drop] at hterm
    exact hterm

/-- Witness for `span_scan_characterization` at a concrete input. -/
theorem span_scan_characterization_witness :
    (findCI ("Complainant Details".data ++ [':'])
        "Complainant Details: Jane".data = some 0) ∧
    (∃ n, matchSection "Complainant Details".data "Complainant Details: Jane".data
        = some (("Complainant Details: Jane".data.drop 0).take
            ("Complainant Details".data.length + 1 + n)) ∧
      (∀ j, j < n → isTermSuffix ("Complainant Details: Jane".data.drop
          (0 + ("Complainant Details".data.length + 1) + j)) = false) ∧
      isTermSuffix ("Complainant Details: Jane".data.drop
          (0 + ("Complainant Details".data.length + 1) + n)) = true) :=
  ⟨by decide,
    span_scan_characterization "Complainant Details"
      "Complainant Details: Jane".data 0 (by decide)⟩

/-- C3 counterexample: matching is case-insensitive, but the prefix strip
is a case-sensitive string `replace`; when the label occurs in lower
case, the matched span is returned with its label prefix still present,
not with the prefix stripped as the claim states. -/
theorem case_strip_cex :
    extractContentStr "Complainant Details" "complainant details: Jane"
        = "complainant details: Jane" ∧
    ("complainant details: Jane" : String) ≠ "Jane" := by
  refine ⟨by decide, by decide⟩

/-- C3 (amended): whenever a match is found, the content is the matched
span with the first case-sensitive occurrence of `L:` removed and the
result trimmed.  When the span begins with `L:` in its canonical case,
this strips the leading prefix as the claim states; when `L:` does not
occur in the span in exact case (for instance because the label matched
in a different letter case), nothing is stripped and the content is the
whole span trimmed. -/
theorem strip_requires_exact_case (L : String) (t m : List Char)
    (h : matchSection L.data t = some m) :
    (exStarts (L.data ++ [':']) m = true →
      extractContent L t = trim (m.drop (L.data.length + 1))) ∧
    (findFirst (L.data ++ [':']) m = none →
      extractContent L t = trim m) := by
  constructor
  · intro hpre
    have hne : L.data ++ [':'] ≠ [] := by simp
    have hf : findFirst (L.data ++ [':']) m = some 0 := by
      cases m with
      | nil =>
        cases hp : L.data ++ [':'] with
        | nil => exact absurd hp hne
        | cons c cs =>
          rw [hp] at hpre
          simp [exStarts] at hpre
      | cons c cs =>
        rw [findFirst_eq_findFirstR]
        simp only [findFirstR]
        rw [if_pos hpre]
    simp only [extractContent, h]
    congr 1
    simp only [replaceFirst, hf]
    have hexp : expandRepl (L.data ++ [':']) (m.take 0)
        (m.drop (0 + (L.data ++ [':']).length)) [] = [] := rfl
    rw [hexp]
    simp [List.length_append]
  · intro hnone
    simp only [extractContent, h]
    congr 1
    simp only [replaceFirst, hnone]

/-- Witness for `strip_requires_exact_case` at a concrete input with the
canonical letter case. -/
theorem strip_requires_exact_case_witness :
    (matchSection "Complainant Details".data "Complainant Details: Jane".data
        = some "Complainant Details: Jane".data ∧
      exStarts ("Complainant Details".data ++ [':'])
        "Complainant Details: Jane".data = true) ∧
    extractContent "Complainant Details" "Complainant Details: Jane".data
      = trim ("Complainant Details: Jane".data.drop
          ("Complainant Details".data.length + 1)) :=
  ⟨⟨by decide, by decide⟩,
    (strip_requires_exact_case "Complainant Details"
      "Complainant Details: Jane".data "Complainant Details: Jane".data
      (by decide)).1 (by decide)⟩

/-- C4: extraction is a total function (it is defined by structural
recursion, so it never throws); when no label token occurs in the input
at all — in particular for the empty input — every one of the six
sections has content exactly `Information not provided`. -/
theorem extraction_no_labels_all_missing (t : String)
    (h : ∀ L, L ∈ sections → findCI L.data t.data = none) :
    extractSections t = sections.map (fun s => (s, MISSING)) := by
  unfold extractSections
  apply List.map_congr_left
  intro L hL
  have h1 : findCI (L.data ++ [':']) t.data = none := findCI_none_mono (h L hL)
  have h2 : matchSection L.data t.data = none := by
    unfold matchSection
    rw [h1]
  unfold extractContentStr extractContent
  rw [h2]

/-- Witness for `extraction_no_labels_all_missing` at the empty input. -/
theorem extraction_no_labels_all_missing_witness :
    extractSections "" = sections.map (fun s => (s, MISSING)) :=
  extraction_no_labels_all_missing "" (by decide)

/-- C5: the extraction step is a deterministic pure function of the input
text: it is embedded as a Lean function that reads no ambient state, so
running it twice on the same input yields identical output. -/
theorem extraction_deterministic (t : String) :
    extractSections t = extractSections t := rfl

/-- C6: when a label's content region itself contains the literal
substring `Witness Details:` (and no earlier terminator), the matched
span for the current label is truncated exactly at that occurrence. -/
theorem truncation_at_witness_details (L : String) (pre mid post : List Char)
    (h1 : findCI (L.data ++ [':'])
        (pre ++ ((L.data ++ [':']) ++ (mid ++ ("Witness Details:".data ++ post))))
      = some pre.length)
    (h2 : ∀ j, j < mid.length →
      isTermSuffix ((mid ++ ("Witness Details:".data ++ post)).drop j) = false) :
    matchSection L.data
        (pre ++ ((L.data ++ [':']) ++ (mid ++ ("Witness Details:".data ++ post))))
      = some ((L.data ++ [':']) ++ mid) := by
  unfold matchSection
  rw [h1]
  simp only [List.drop_left]
  have hlen : (L.data ++ [':']).length = L.data.length + 1 := by simp
  rw [← hlen, List.take_left, List.drop_left]
  have hterm : isTermSuffix ((mid ++ ("Witness Details:".data ++ post)).drop mid.length)
      = true := by
    rw [List.drop_left]
    have hW : "Witness Details:".data = "Witness Details".data ++ [':'] := by decide
    have hci : ciStarts "Witness Details".data ("Witness Details:".data ++ post) = true := by
      rw [hW, List.append_assoc]
      exact ciStarts_self_append _ _
    unfold isTermSuffix
    rw [Bool.or_eq_true]
    right
    rw [List.any_eq_true]
    exact ⟨"Witness Details".data, by decide, hci⟩
  rw [takeUntilTerm_of h2 hterm, List.take_left]

/-- Witness for `truncation_at_witness_details` at a concrete input. -/
theorem truncation_at_witness_details_witness :
    (findCI ("Incident Details".data ++ [':'])
        ("Report. ".data ++ (("Incident Details".data ++ [':']) ++
          (" slapped ".data ++ ("Witness Details:".data ++ " Neighbor R".data))))
      = some "Report. ".data.length ∧
      (∀ j, j < " slapped ".data.length →
        isTermSuffix ((" slapped ".data ++
          ("Witness Details:".data ++ " Neighbor R".data)).drop j) = false)) ∧
    matchSection "Incident Details".data
        ("Report. ".data ++ (("Incident Details".data ++ [':']) ++
          (" slapped ".data ++ ("Witness Details:".data ++ " Neighbor R".data))))
      = some (("Incident Details".data ++ [':']) ++ " slapped ".data) :=
  ⟨⟨by decide, by decide⟩,
    truncation_at_witness_details "Incident Details" "Report. ".data
      " slapped ".data " Neighbor R".data (by decide) (by decide)⟩


/-- C8: when the generation call fails, no exception propagates: the
assistant turn appended to the transcript is exactly the fixed fallback
string, and no retry is attempted (exactly one generation call is made,
whatever a second call would have returned). -/
theorem handleSend_failure_fallback (st : ChatState) (g2 : Option String)
    (h : (jsTrim st.inputText).isEmpty = false) :
    (handleSend st none g2).1.messages
        = st.messages ++ [⟨"user", jsTrim st.inputText⟩, ⟨"assistant", FALLBACK⟩] ∧
    (handleSend st none g2).2 = 1 := by
  have hns : containsSub "NEEDS_SEARCH".data FALLBACK.data = false := by decide
  simp only [handleSend, h, Bool.false_eq_true, if_false, hns]
  simp

/-- Witness for `handleSend_failure_fallback` at a concrete state. -/
theorem handleSend_failure_fallback_witness :
    ((jsTrim "  help me ").isEmpty = false) ∧
    ((handleSend ⟨[⟨"assistant", "Hi"⟩], "  help me ", []⟩ none none).1.messages
        = [⟨"assistant", "Hi"⟩] ++ [⟨"user", jsTrim "  help me "⟩, ⟨"assistant", FALLBACK⟩] ∧
      (handleSend ⟨[⟨"assistant", "Hi"⟩], "  help me ", []⟩ none none).2 = 1) :=
  ⟨by decide,
    handleSend_failure_fallback ⟨[⟨"assistant", "Hi"⟩], "  help me ", []⟩ none (by decide)⟩

/-- C10: for an input that is empty or consists only of whitespace (its
trim is empty), `handleSend` returns immediately: the transcript is
unchanged, the input field is not cleared, nothing is persisted, and no
remote call is made. -/
theorem handleSend_blank_noop (st : ChatState) (g1 g2 : Option String)
    (h : jsTrim st.inputText = "") :
    handleSend st g1 g2 = (st, 0) := by
  unfold handleSend
  rw [if_pos (by rw [h]; rfl)]

/-- Witness for `handleSend_blank_noop` at a whitespace-only input. -/
theorem handleSend_blank_noop_witness :
    (jsTrim "   " = "") ∧
    handleSend ⟨[⟨"assistant", "Hi"⟩], "   ", [("user", "x")]⟩ (some "reply") none
      = (⟨[⟨"assistant", "Hi"⟩], "   ", [("user", "x")]⟩, 0) :=
  ⟨by decide,
    handleSend_blank_noop ⟨[⟨"assistant", "Hi"⟩], "   ", [("user", "x")]⟩
      (some "reply") none (by decide)⟩

/-- C9: the search returns exactly those entries of the combined static
dataset (IPC entries then PWDVA entries, dataset order preserved — the
result is a sublist of `allData`) whose title or description contains the
query case-insensitively as a substring; the empty query returns every
entry. -/
theorem handleSearch_filter_spec (ipc pwdva : List LawRecord) (q : String) :
    List.Sublist (handleSearch (allData ipc pwdva) q) (allData ipc pwdva) ∧
    (∀ e, e ∈ handleSearch (allData ipc pwdva) q ↔
      e ∈ allData ipc pwdva ∧
        (occursIn (jsToLower q.data) (jsToLower e.title.data) ∨
          occursIn (jsToLower q.data) (jsToLower e.description.data))) ∧
    (q = "" → handleSearch (allData ipc pwdva) q = allData ipc pwdva) := by
  refine ⟨List.filter_sublist _, ?_, ?_⟩
  · intro e
    unfold handleSearch
    rw [List.mem_filter]
    constructor
    · rintro ⟨hm, hp⟩
      refine ⟨hm, ?_⟩
      unfold searchPred at hp
      simp only [Bool.or_eq_true] at hp
      rcases hp with hp1 | hp2
      · exact Or.inl (containsSub_iff_occursIn.mp hp1)
      · exact Or.inr (containsSub_iff_occursIn.mp hp2)
    · rintro ⟨hm, hocc⟩
      refine ⟨hm, ?_⟩
      unfold searchPred
      simp only [Bool.or_eq_true]
      rcases hocc with hocc1 | hocc2
      · exact Or.inl (containsSub_iff_occursIn.mpr hocc1)
      · exact Or.inr (containsSub_iff_occursIn.mpr hocc2)
  · intro hq
    subst hq
    unfold handleSearch
    apply List.filter_eq_self.mpr
    intro a ha
    unfold searchPred
    rw [Bool.or_eq_true]
    left
    unfold containsSub
    rw [show jsToLower ("" : String).data = [] from rfl, findFirst_nil_pat]
    rfl

/-- Witness for `handleSearch_filter_spec`: the empty query returns the
whole dataset on a concrete two-entry dataset. -/
theorem handleSearch_filter_spec_witness :
    handleSearch
        (allData [⟨"Theft", "Taking movable property", "378"⟩]
          [⟨"Protection order", "Court order protecting the aggrieved", "18"⟩]) ""
      = allData [⟨"Theft", "Taking movable property", "378"⟩]
          [⟨"Protection order", "Court order protecting the aggrieved", "18"⟩] :=
  (handleSearch_filter_spec [⟨"Theft", "Taking movable property", "378"⟩]
    [⟨"Protection order", "Court order protecting the aggrieved", "18"⟩] "").2.2 rfl


set_option maxRecDepth 16000 in
/-- C7 counterexample: document assembly does not guarantee that no
placeholder remains in the output.  When an extracted content itself
contains the literal text of the date placeholder, the date `replace`
(which replaces only the first occurrence) hits that occurrence inside
the spliced content, and the template's own date placeholder survives in
the final document. -/
theorem assemble_document_cex :
    containsSub datePH.data
        (assembleDocument "Complainant Details: \x7b\x7bDATE\x7d\x7d".data "11/10/2025".data)
      = true := by
  decide

set_option maxRecDepth 8000 in
/-- C7 (amended): assembly wraps each label/content pair into the fixed
block markup, concatenates the six blocks in canonical order
(`structuredContentOf`), and substitutes that concatenation and the date
into the template's placeholders by two first-occurrence string replaces.
The template splits as `tplA ++ contentPH ++ tplB ++ datePH ++ tplC`, and
provided the spliced content contains no dollar substitution pattern and
no occurrence of the date placeholder (and the date string no dollar),
the result is exactly the template text with the block concatenation and
the date at the two placeholder positions — in particular every block
appears in order and neither placeholder position survives. -/
theorem assemble_document_spec (t dateStr : List Char)
    (hd1 : '$' ∉ structuredContentOf t)
    (hd2 : '$' ∉ dateStr)
    (hocc : containsSub datePH.data
      (tplA.data ++ structuredContentOf t ++ tplB.data) = false) :
    FIR_TEMPLATE = tplA ++ contentPH ++ tplB ++ datePH ++ tplC ∧
    assembleDocument t dateStr
      = tplA.data ++ structuredContentOf t ++ tplB.data ++ dateStr ++ tplC.data := by
  have hsplit : FIR_TEMPLATE = tplA ++ contentPH ++ tplB ++ datePH ++ tplC := by decide
  refine ⟨hsplit, ?_⟩
  unfold assembleDocument
  have h1 : findFirst contentPH.data FIR_TEMPLATE.data = some 510 := by decide
  have htake : FIR_TEMPLATE.data.take 510 = tplA.data := by decide
  have hdrop : FIR_TEMPLATE.data.drop (510 + contentPH.data.length)
      = tplB.data ++ (datePH.data ++ tplC.data) := by decide
  have step1 : replaceFirst FIR_TEMPLATE.data contentPH.data (structuredContentOf t)
      = (tplA.data ++ structuredContentOf t ++ tplB.data) ++ (datePH.data ++ tplC.data) := by
    simp only [replaceFirst, h1]
    rw [expandRepl_no_dollar hd1, htake, hdrop]
    simp [List.append_assoc]
  rw [step1]
  have hno : ∀ k, k < datePH.data.length → 0 < k →
      exStarts (datePH.data.drop k) datePH.data = false := by decide
  have h2 : findFirst datePH.data
      ((tplA.data ++ structuredContentOf t ++ tplB.data) ++ (datePH.data ++ tplC.data))
      = some (tplA.data ++ structuredContentOf t ++ tplB.data).length :=
    findFirst_of_not_contains hocc hno
  simp only [replaceFirst, h2]
  rw [expandRepl_no_dollar hd2, List.take_left]
  have hgen : ∀ (u v w : List Char), (u ++ (v ++ w)).drop (u.length + v.length) = w := by
    intro u v w
    rw [← List.append_assoc, ← List.length_append]
    exact List.drop_left _ _
  have hdrop2 := hgen (tplA.data ++ structuredContentOf t ++ tplB.data) datePH.data tplC.data
  rw [hdrop2]

set_option maxRecDepth 8000 in
/-- Witness for `assemble_document_spec` at a concrete conversation
extract and date. -/
theorem assemble_document_spec_witness :
    ('$' ∉ structuredContentOf "Complainant Details: Jane Doe".data ∧
      '$' ∉ "11/10/2025".data ∧
      containsSub datePH.data
        (tplA.data ++ structuredContentOf "Complainant Details: Jane Doe".data ++ tplB.data)
        = false) ∧
    (FIR_TEMPLATE = tplA ++ contentPH ++ tplB ++ datePH ++ tplC ∧
      assembleDocument "Complainant Details: Jane Doe".data "11/10/2025".data
        = tplA.data ++ structuredContentOf "Complainant Details: Jane Doe".data ++
            tplB.data ++ "11/10/2025".data ++ tplC.data) :=
  ⟨⟨by decide, by decide, by decide⟩,
    assemble_document_spec "Complainant Details: Jane Doe".data "11/10/2025".data
      (by decide) (by decide) (by decide)⟩

end NyayaGhost
